import Mathlib

set_option maxRecDepth 10000

/-!
# Verification of the sudoku solver (FlorianLoch/sudokusolver)

Shallow embedding of the Go sources `board.go` / `main.go` (and the
goroutine-based variant in the unnamed part).  A `Board` is the Go
`[]int` slice of 81 cells in row-major order, value 0 meaning "empty".
Go's in-place mutation is modelled by threading the board value through
each function; `solveInner`'s unbounded recursion is modelled with a
fuel parameter returning `none` when fuel runs out (we prove fuel
`82` always suffices for start indices `≤ 81`).
-/

namespace Sudoku

/-- The Go `Board` type: a slice of integer cells (`type Board []int`).
All cells written by the program are in `0..9`, so we use `Nat`. -/
abbrev Board := List Nat

/-- Reading `b[idx]`. Every read the program performs is in bounds for an
81-cell board; out-of-range reads (which would panic in Go) default to 0. -/
def cell (b : Board) (idx : Nat) : Nat := b.getD idx 0

/-- Writing `b[idx] = v` (in-place in Go, functional update here). -/
def setCell (b : Board) (idx v : Nat) : Board := b.set idx v

/-- `var blockOffsets = []int{0, 1, 2, 9, 10, 11, 18, 19, 20}` -/
def blockOffsets : List Nat := [0, 1, 2, 9, 10, 11, 18, 19, 20]

/-- `func (b Board) valuePossibleAt(v, idx int) bool`: the row loop, the
column loop and the block loop, each returning `false` on the first cell
equal to `v` (early return is the same Boolean as `List.all`). -/
def valuePossibleAt (b : Board) (v idx : Nat) : Bool :=
  let startOfRowIdx := idx / 9 * 9
  let column := idx % 9
  let row := idx / 9
  let topLeftIdx := row / 3 * 3 * 9 + column / 3 * 3
  ((List.range 9).all fun i => cell b (startOfRowIdx + i) != v) &&
  ((List.range 9).all fun i => cell b (column + i * 9) != v) &&
  (blockOffsets.all fun offset => cell b (topLeftIdx + offset) != v)

/-- Loop body of `findNextFieldNotSetAlready`: `for idx < 81 && b[idx] != 0
{ idx = idx + 1 }`.  The loop runs at most `81 - idx` times, which we use
as the (exact) structural counter: the counter is positive iff `idx < 81`. -/
def findNextGo (b : Board) : Nat → Nat → Nat
  | 0, idx => idx
  | steps + 1, idx => if cell b idx != 0 then findNextGo b steps (idx + 1) else idx

/-- `func (b Board) findNextFieldNotSetAlready(idx int) int` -/
def findNextFieldNotSetAlready (b : Board) (idx : Nat) : Nat :=
  findNextGo b (81 - idx) idx

/-- The candidate values `i := 1; i < 10; i++` of `solveInner`'s loop. -/
def candidateValues : List Nat := [1, 2, 3, 4, 5, 6, 7, 8, 9]

/-- The candidate loop of `solveInner` at cell `j`, over the remaining
candidate values, threading the in-place board; `recur` is the recursive
call `solveInner(j + 1)` on the current board; when the loop exhausts,
the cell is reset to 0 (the backtracking step) and `false` is returned. -/
def tryValues (recur : Board → Option (Bool × Board)) (b : Board) (j : Nat) :
    List Nat → Option (Bool × Board)
  | [] =>
    -- Reset field for backtracking
    some (false, setCell b j 0)
  | i :: rest =>
    if valuePossibleAt b i j then
      match recur (setCell b j i) with
      | none => none
      | some (true, b') => some (true, b')
      | some (false, b') => tryValues recur b' j rest
    else
      tryValues recur b j rest

/-- `func (b Board) solveInner(idx int) bool`, with fuel bounding the
recursion depth (`none` = out of fuel; fuel `82 - idx` always suffices,
see the totality theorem below).  Returns the Go boolean together with
the board as left in memory when the call returns. -/
def solveInnerF : Nat → Board → Nat → Option (Bool × Board)
  | 0, _, _ => none
  | fuel + 1, b, idx =>
    let j := findNextFieldNotSetAlready b idx
    if j = 81 then
      -- All fields are set, we found a solution for this puzzle
      some (true, b)
    else
      tryValues (fun b' => solveInnerF fuel b' (j + 1)) b j candidateValues

/-- The sequential solver entry: `b.solveInner(idx)` with enough fuel. -/
def solveInner (b : Board) (idx : Nat) : Option (Bool × Board) :=
  solveInnerF 82 b idx

/-- `func (b Board) String() string`: for each `i < 81` the builder writes a
newline when `i % 9 == 0`, then `strconv.Itoa(b[i])`, then a space; a final
newline follows the loop. -/
def boardString (b : Board) : String :=
  String.join ((List.range 81).map fun i =>
    (if i % 9 = 0 then "\n" else "") ++ toString (cell b i) ++ " ") ++ "\n"

/-- `var exampleBoard = Board{5, 3, 0, ...}` (the fixed literal in the source). -/
def exampleBoard : Board :=
  [5, 3, 0, 0, 7, 0, 0, 0, 0,
   6, 0, 0, 1, 9, 5, 0, 0, 0,
   0, 9, 8, 0, 0, 0, 0, 6, 0,
   8, 0, 0, 0, 6, 0, 0, 0, 3,
   4, 0, 0, 8, 0, 3, 0, 0, 1,
   7, 0, 0, 0, 2, 0, 0, 0, 6,
   0, 6, 0, 0, 0, 0, 2, 8, 0,
   0, 0, 0, 4, 1, 9, 0, 0, 5,
   0, 0, 0, 0, 8, 0, 0, 7, 9]

/-- The three observable outcomes of the goroutine-based `Solve`
coordinator: the early return when the board is already full, the
`resultChan` branch of the `select` (carrying the winning clone), and the
`doneChan` branch ("Could not find a valid solution"). -/
inductive SolveOutcome where
  | alreadySolved (b : Board)
  | solved (b : Board)
  | unsolvable
deriving DecidableEq

/-- Pure model of the goroutine-based `func (b Board) Solve()`: `o` is an
outcome the coordinator can report for input `b`.  The concurrency is
abstracted by its observable protocol: one task per legal value `i` at the
first empty cell runs `solveInner(idx+1)` on a clone with `copiedBoard[idx] = i`;
a task that solves its clone sends it to `resultChan` and skips `wg.Done()`,
so `doneChan` can only close when every task failed, and the `select` reports
a winning clone exactly when some task succeeded (which board wins is the
scheduler's choice, hence the existential). -/
def SolveCanReturn (b : Board) (o : SolveOutcome) : Prop :=
  let idx := findNextFieldNotSetAlready b 0
  if idx = 81 then
    o = SolveOutcome.alreadySolved b
  else
    (∃ v s, 1 ≤ v ∧ v ≤ 9 ∧ valuePossibleAt b v idx = true ∧
      solveInner (setCell b idx v) (idx + 1) = some (true, s) ∧ o = SolveOutcome.solved s) ∨
    ((∀ v, 1 ≤ v → v ≤ 9 → valuePossibleAt b v idx = true →
      ∀ s, solveInner (setCell b idx v) (idx + 1) ≠ some (true, s)) ∧ o = SolveOutcome.unsolvable)

/-! ### Specification-side definitions

These follow the wording of the specification (regions, duplicate-freedom,
solutions, the expected solved board) and are compared with the embedded
code above. -/

/-- The row containing linear index `r * 9 + i`: the spec's "9 cells sharing
`index/9`", listed as the code's row loop visits them. -/
def rowCells (r : Nat) : List Nat := (List.range 9).map fun i => r * 9 + i

/-- The column: the spec's "9 cells at stride 9 sharing `index%9`". -/
def colCells (c : Nat) : List Nat := (List.range 9).map fun i => c + i * 9

/-- The 3×3 block anchored at top-left index `t`: the spec's offsets
`{0,1,2,9,10,11,18,19,20}` added to the anchor. -/
def blockCellsAt (t : Nat) : List Nat := blockOffsets.map fun o => t + o

/-- The 27 cells the legality check examines for `idx` (row, column, block). -/
def checkedCells (idx : Nat) : List Nat :=
  rowCells (idx / 9) ++ colCells (idx % 9) ++ blockCellsAt (idx / 9 / 3 * 3 * 9 + idx % 9 / 3 * 3)

/-- `p` and `q` share a row, a column, or a 3×3 block. -/
def inSameRegion (p q : Nat) : Prop :=
  p / 9 = q / 9 ∨ p % 9 = q % 9 ∨ (p / 27 = q / 27 ∧ p % 9 / 3 = q % 9 / 3)

instance (p q : Nat) : Decidable (inSameRegion p q) :=
  inferInstanceAs (Decidable (_ ∨ _))

/-- The spec's board invariant: no nonzero value appears twice in any row,
column, or 3×3 block. -/
def Valid (b : Board) : Prop :=
  ∀ p < 81, ∀ q < 81, p ≠ q → inSameRegion p q → cell b p ≠ 0 → cell b p ≠ cell b q

set_option synthInstance.maxSize 1000 in
instance (b : Board) : Decidable (Valid b) :=
  inferInstanceAs (Decidable (∀ p < 81, ∀ q < 81,
    p ≠ q → inSameRegion p q → cell b p ≠ 0 → cell b p ≠ cell b q))

/-- `s` is a solution of puzzle `b`: an 81-cell board that keeps every clue
of `b`, has every cell in `1..9`, and violates no row/column/block
constraint. -/
def IsSolutionOf (b s : Board) : Prop :=
  s.length = 81 ∧ (∀ k < 81, cell b k ≠ 0 → cell s k = cell b k) ∧
  (∀ k < 81, 1 ≤ cell s k ∧ cell s k ≤ 9) ∧ Valid s

instance (b s : Board) : Decidable (IsSolutionOf b s) :=
  inferInstanceAs (Decidable (_ ∧ _))

/-- `v` is the only value in `1..9` that the legality check admits at the
empty cell `k` of `b` (every other candidate already conflicts). -/
def forcedAt (b : Board) (k v : Nat) : Bool :=
  decide (k < 81) && decide (1 ≤ v) && decide (v ≤ 9) && (cell b k == 0) &&
  (candidateValues.all fun w => (w == v) || !(valuePossibleAt b w k))

/-- Apply a list of forced moves, checking each one with `forcedAt`. -/
def applyChain : Board → List (Nat × Nat) → Option Board
  | b, [] => some b
  | b, (k, v) :: rest => if forcedAt b k v then applyChain (setCell b k v) rest else none

/-- A chain of forced-cell deductions for `exampleBoard` (each step's cell
has a unique legal value at that point), ending in a full board; checked by
`applyChain`. -/
def forcedChain : List (Nat × Nat) :=
  [(40, 5), (48, 9), (58, 3), (59, 7), (62, 4), (70, 3), (22, 4), (23, 2),
   (26, 7), (30, 7), (37, 2), (43, 9), (57, 5), (63, 2), (65, 7), (69, 6),
   (77, 6), (78, 1), (3, 6), (5, 8), (8, 2), (16, 4), (17, 8), (18, 1),
   (21, 3), (24, 5), (33, 4), (38, 6), (42, 7), (51, 8), (52, 5), (54, 9),
   (56, 1), (64, 8), (72, 3), (75, 2), (2, 4), (6, 9), (7, 1), (10, 7),
   (11, 2), (15, 3), (32, 1), (34, 2), (46, 1), (47, 3), (50, 4), (74, 5),
   (28, 5), (29, 9), (73, 4)]

/-- The spec's expected solved board for the concrete scenario. -/
def solvedBoard : Board :=
  [5, 3, 4, 6, 7, 8, 9, 1, 2,
   6, 7, 2, 1, 9, 5, 3, 4, 8,
   1, 9, 8, 3, 4, 2, 5, 6, 7,
   8, 5, 9, 7, 6, 1, 4, 2, 3,
   4, 2, 6, 8, 5, 3, 7, 9, 1,
   7, 1, 3, 9, 2, 4, 8, 5, 6,
   9, 6, 1, 5, 3, 7, 2, 8, 4,
   2, 8, 7, 4, 1, 9, 6, 3, 5,
   3, 4, 5, 2, 8, 6, 1, 7, 9]

/-- A test fixture: the first empty cell (index 8) has no legal value —
row 0 already holds 1..8 and column 8 already holds 9 — so the search
fails immediately (the spec's "no legal assignment anywhere reachable"). -/
def unsolvableBoard : Board :=
  [1, 2, 3, 4, 5, 6, 7, 8, 0,
   0, 0, 0, 0, 0, 0, 0, 0, 9,
   0, 0, 0, 0, 0, 0, 0, 0, 0,
   0, 0, 0, 0, 0, 0, 0, 0, 0,
   0, 0, 0, 0, 0, 0, 0, 0, 0,
   0, 0, 0, 0, 0, 0, 0, 0, 0,
   0, 0, 0, 0, 0, 0, 0, 0, 0,
   0, 0, 0, 0, 0, 0, 0, 0, 0,
   0, 0, 0, 0, 0, 0, 0, 0, 0]

/-- Join a list of strings with a separator between consecutive entries
(the spec's "space-separated" / row-per-line shape). -/
def sepBy (sep : String) : List String → String
  | [] => ""
  | [x] => x
  | x :: y :: rest => x ++ sep ++ sepBy sep (y :: rest)

/-! ### Basic board lemmas -/

theorem length_setCell (b : Board) (j v : Nat) : (setCell b j v).length = b.length :=
  List.length_set ..

theorem cell_setCell_ne (b : Board) (j v : Nat) {k : Nat} (h : k ≠ j) :
    cell (setCell b j v) k = cell b k := by
  simp [cell, setCell, List.getElem?_set_ne (Ne.symm h)]

theorem cell_setCell_self (b : Board) (j v : Nat) (h : j < b.length) :
    cell (setCell b j v) j = v := by
  simp [cell, setCell, List.getElem?_set_self h]

theorem cell_setCell_self' (b : Board) (j v : Nat) :
    cell (setCell b j v) j = if j < b.length then v else 0 := by
  by_cases h : j < b.length
  · simp [h, cell_setCell_self]
  · have : b[j]? = none := List.getElem?_eq_none (by omega)
    simp [cell, setCell, List.getElem?_set_self', this, h]

theorem setCell_of_cell_eq {b : Board} {j v : Nat} (h : cell b j = v) :
    setCell b j v = b := by
  apply List.ext_getElem?
  intro n
  by_cases hn : n = j
  · subst hn
    by_cases hl : n < b.length
    · have hc : cell b n = b[n] := by
        simp [cell, List.getD_eq_getElem?_getD, List.getElem?_eq_getElem hl]
      rw [setCell, List.getElem?_set_self hl, List.getElem?_eq_getElem hl, ← h, hc]
    · have hset : n ≥ b.length := by omega
      rw [setCell, List.getElem?_eq_none (by simpa [length_setCell] using hset),
        List.getElem?_eq_none hset]
  · rw [setCell, List.getElem?_set_ne (fun hh => hn hh.symm)]

theorem setCell_setCell (b : Board) (j v w : Nat) :
    setCell (setCell b j v) j w = setCell b j w :=
  List.set_set ..

theorem mem_candidateValues {v : Nat} : v ∈ candidateValues ↔ 1 ≤ v ∧ v ≤ 9 := by
  simp [candidateValues]
  omega

theorem candidateValues_sorted : List.Pairwise (· < ·) candidateValues := by decide

/-! ### The first-empty-cell scan -/

theorem findNextGo_ge (b : Board) (steps : Nat) :
    ∀ idx, idx ≤ findNextGo b steps idx := by
  induction steps with
  | zero => intro idx; simp [findNextGo]
  | succ n ih =>
    intro idx
    rw [findNextGo]
    split
    · exact le_trans (Nat.le_succ idx) (ih (idx + 1))
    · exact le_refl idx

theorem findNextGo_le (b : Board) (steps : Nat) :
    ∀ idx, findNextGo b steps idx ≤ idx + steps := by
  induction steps with
  | zero => intro idx; simp [findNextGo]
  | succ n ih =>
    intro idx
    rw [findNextGo]
    split
    · exact le_trans (ih (idx + 1)) (by omega)
    · omega

theorem findNextGo_min (b : Board) (steps : Nat) :
    ∀ idx k, idx ≤ k → k < findNextGo b steps idx → cell b k ≠ 0 := by
  induction steps with
  | zero => intro idx k h1 h2; simp [findNextGo] at h2; omega
  | succ n ih =>
    intro idx k h1 h2
    rw [findNextGo] at h2
    split at h2
    · rename_i hcell
      rcases Nat.eq_or_lt_of_le h1 with rfl | hlt
      · simpa using hcell
      · exact ih (idx + 1) k hlt h2
    · omega

theorem findNextGo_cell (b : Board) (steps : Nat) :
    ∀ idx, findNextGo b steps idx < idx + steps → cell b (findNextGo b steps idx) = 0 := by
  induction steps with
  | zero => intro idx h; simp [findNextGo] at h
  | succ n ih =>
    intro idx h
    rw [findNextGo] at h ⊢
    by_cases hc : (cell b idx != 0) = true
    · rw [if_pos hc] at h ⊢
      exact ih (idx + 1) (by omega)
    · rw [if_neg hc] at h ⊢
      simpa using hc

theorem findNext_ge (b : Board) (idx : Nat) : idx ≤ findNextFieldNotSetAlready b idx :=
  findNextGo_ge b _ idx

theorem findNext_le (b : Board) {idx : Nat} (h : idx ≤ 81) :
    findNextFieldNotSetAlready b idx ≤ 81 := by
  have := findNextGo_le b (81 - idx) idx
  rw [findNextFieldNotSetAlready]
  omega

theorem findNext_cell (b : Board) {idx : Nat} (h : idx ≤ 81)
    (h2 : findNextFieldNotSetAlready b idx < 81) :
    cell b (findNextFieldNotSetAlready b idx) = 0 := by
  apply findNextGo_cell b (81 - idx) idx
  rw [findNextFieldNotSetAlready] at h2
  omega

theorem findNext_min (b : Board) (idx : Nat) :
    ∀ k, idx ≤ k → k < findNextFieldNotSetAlready b idx → cell b k ≠ 0 :=
  findNextGo_min b _ idx

theorem findNext_eq_81 (b : Board) {idx : Nat} (hidx : idx ≤ 81)
    (h : ∀ k, idx ≤ k → k < 81 → cell b k ≠ 0) :
    findNextFieldNotSetAlready b idx = 81 := by
  rcases Nat.lt_or_ge (findNextFieldNotSetAlready b idx) 81 with hlt | hge
  · exact absurd (findNext_cell b hidx hlt) (h _ (findNext_ge b idx) hlt)
  · have := findNext_le b hidx
    omega

/-! ### The legality check: characterization and congruence -/

theorem valuePossibleAt_eq_true_iff (b : Board) (v idx : Nat) :
    valuePossibleAt b v idx = true ↔ ∀ q ∈ checkedCells idx, cell b q ≠ v := by
  simp only [valuePossibleAt, Bool.and_eq_true, List.all_eq_true, List.mem_range,
    bne_iff_ne, ne_eq, checkedCells, rowCells, colCells, blockCellsAt,
    List.mem_append, List.mem_map]
  constructor
  · rintro ⟨⟨hrow, hcol⟩, hblk⟩ q hq
    rcases hq with (⟨i, hi, rfl⟩ | ⟨i, hi, rfl⟩) | ⟨o, ho, rfl⟩
    · exact hrow i hi
    · exact hcol i hi
    · exact hblk o ho
  · intro h
    refine ⟨⟨fun i hi => ?_, fun i hi => ?_⟩, fun o ho => ?_⟩
    · exact h _ (Or.inl (Or.inl ⟨i, hi, rfl⟩))
    · exact h _ (Or.inl (Or.inr ⟨i, hi, rfl⟩))
    · exact h _ (Or.inr ⟨o, ho, rfl⟩)

theorem valuePossibleAt_eq_false_iff (b : Board) (v idx : Nat) :
    valuePossibleAt b v idx = false ↔ ∃ q ∈ checkedCells idx, cell b q = v := by
  constructor
  · intro hf
    by_contra hno
    push_neg at hno
    have ht : valuePossibleAt b v idx = true :=
      (valuePossibleAt_eq_true_iff b v idx).mpr hno
    rw [ht] at hf
    cases hf
  · rintro ⟨q, hq, hc⟩
    rcases hb2 : valuePossibleAt b v idx with _ | _
    · rfl
    · exact absurd hc ((valuePossibleAt_eq_true_iff b v idx).mp hb2 q hq)

theorem mem_checkedCells {p q : Nat} (hp : p < 81) :
    q ∈ checkedCells p ↔ (q < 81 ∧ inSameRegion p q) := by
  simp only [checkedCells, List.mem_append, rowCells, colCells, blockCellsAt,
    blockOffsets, List.mem_map, List.mem_range, inSameRegion, List.mem_cons,
    List.not_mem_nil, or_false]
  constructor
  · rintro ((⟨i, hi, rfl⟩ | ⟨i, hi, rfl⟩) | ⟨o, ho, rfl⟩)
    · exact ⟨by omega, Or.inl (by omega)⟩
    · exact ⟨by omega, Or.inr (Or.inl (by omega))⟩
    · rcases ho with rfl | rfl | rfl | rfl | rfl | rfl | rfl | rfl | rfl <;>
        exact ⟨by omega, Or.inr (Or.inr ⟨by omega, by omega⟩)⟩
  · rintro ⟨hq, h | h | ⟨h1, h2⟩⟩
    · exact Or.inl (Or.inl ⟨q % 9, by omega, by omega⟩)
    · exact Or.inl (Or.inr ⟨q / 9, by omega, by omega⟩)
    · refine Or.inr ⟨q / 9 % 3 * 9 + q % 9 % 3, by omega, by omega⟩

theorem self_mem_checkedCells {p : Nat} (hp : p < 81) : p ∈ checkedCells p := by
  rw [mem_checkedCells hp]
  exact ⟨hp, Or.inl rfl⟩

theorem inSameRegion_symm {p q : Nat} (h : inSameRegion p q) : inSameRegion q p := by
  rcases h with h | h | ⟨h1, h2⟩
  · exact Or.inl h.symm
  · exact Or.inr (Or.inl h.symm)
  · exact Or.inr (Or.inr ⟨h1.symm, h2.symm⟩)

/-- The legality check at `j` is unchanged when the empty cell `j` itself is
overwritten with a value other than the candidate under test. -/
theorem valuePossibleAt_setCell_self (b : Board) {j w v : Nat}
    (h0 : cell b j = 0) (hwv : w ≠ v) (hv : 1 ≤ v) (idx : Nat) :
    valuePossibleAt (setCell b j w) v idx = valuePossibleAt b v idx := by
  have key : ∀ q, cell (setCell b j w) q = v ↔ cell b q = v := by
    intro q
    by_cases hq : q = j
    · subst hq
      rw [cell_setCell_self']
      constructor
      · intro hh
        by_cases hl : q < b.length
        · simp only [hl, if_true] at hh; omega
        · simp only [hl, if_false] at hh; omega
      · intro hh; omega
    · rw [cell_setCell_ne b j w hq]
  rcases h1 : valuePossibleAt (setCell b j w) v idx with _ | _ <;>
    rcases h2 : valuePossibleAt b v idx with _ | _
  · rfl
  · rw [valuePossibleAt_eq_false_iff] at h1
    obtain ⟨q, hq, hc⟩ := h1
    rw [valuePossibleAt_eq_true_iff] at h2
    exact absurd ((key q).mp hc) (h2 q hq)
  · rw [valuePossibleAt_eq_false_iff] at h2
    obtain ⟨q, hq, hc⟩ := h2
    rw [valuePossibleAt_eq_true_iff] at h1
    exact absurd ((key q).mpr hc) (h1 q hq)
  · rfl

/-- Writing a legal value into an empty cell preserves the board invariant. -/
theorem Valid.setCell {b : Board} (hb : Valid b) {j v : Nat}
    (hlen : b.length = 81) (hj : j < 81) (h0 : cell b j = 0) (hv1 : 1 ≤ v)
    (hlegal : valuePossibleAt b v j = true) : Valid (setCell b j v) := by
  rw [valuePossibleAt_eq_true_iff] at hlegal
  have hjlen : j < b.length := by omega
  intro p hp q hq hpq hreg hp0
  rcases eq_or_ne p j with hpj | hpj
  · rcases eq_or_ne q j with hqj | hqj
    · exact absurd (hpj.trans hqj.symm) hpq
    · rw [hpj, cell_setCell_self b j v hjlen, cell_setCell_ne b j v hqj]
      intro hcontra
      refine hlegal q ?_ hcontra.symm
      rw [mem_checkedCells hj]
      refine ⟨hq, ?_⟩
      rw [← hpj]
      exact hreg
  · rw [cell_setCell_ne b j v hpj] at hp0 ⊢
    rcases eq_or_ne q j with hqj | hqj
    · rw [hqj, cell_setCell_self b j v hjlen]
      intro hcontra
      refine hlegal p ?_ hcontra
      rw [mem_checkedCells hj]
      refine ⟨hp, ?_⟩
      rw [← hqj]
      exact inSameRegion_symm hreg
    · rw [cell_setCell_ne b j v hqj]
      exact hb p hp q hq hpq hreg hp0

/-! ### The candidate loop -/

/-- Backtracking leaves no residue: a failing loop hands back the board it
received with the cell reset (the recursive calls restoring their own work). -/
theorem tryValues_false {recur : Board → Option (Bool × Board)}
    (hrec : ∀ n r, recur n = some (false, r) → r = n) (j : Nat) :
    ∀ vals b b', tryValues recur b j vals = some (false, b') → b' = setCell b j 0 := by
  intro vals
  induction vals with
  | nil =>
    intro b b' h
    rw [tryValues] at h
    cases h
    rfl
  | cons i rest ih =>
    intro b b' h
    rw [tryValues] at h
    split at h
    · split at h
      · cases h
      · simp at h
      · rename_i rb heq
        have hrb : rb = setCell b j i := hrec _ _ heq
        subst hrb
        rw [ih _ _ h, setCell_setCell]
    · exact ih _ _ h

/-- If every recursive call answers, the loop answers. -/
theorem tryValues_isSome {recur : Board → Option (Bool × Board)}
    (hrec : ∀ n, (recur n).isSome) (j : Nat) :
    ∀ vals b, (tryValues recur b j vals).isSome := by
  intro vals
  induction vals with
  | nil => intro b; rw [tryValues]; rfl
  | cons i rest ih =>
    intro b
    rw [tryValues]
    split
    · rcases hsome : recur (setCell b j i) with _ | ⟨_ | _, rb⟩
      · exact absurd (hrec (setCell b j i)) (by rw [hsome]; simp)
      · exact ih rb
      · rfl
    · exact ih b

/-- Loop results are stable under improving the recursive call. -/
theorem tryValues_mono {recur recur' : Board → Option (Bool × Board)}
    (hmono : ∀ n r, recur n = some r → recur' n = some r) (j : Nat) :
    ∀ vals b r, tryValues recur b j vals = some r → tryValues recur' b j vals = some r := by
  intro vals
  induction vals with
  | nil => intro b r h; rw [tryValues] at h ⊢; exact h
  | cons i rest ih =>
    intro b r h
    rw [tryValues] at h ⊢
    split at h <;> rename_i hcond
    · rw [if_pos hcond]
      split at h <;> rename_i heq
      · cases h
      · rw [hmono _ _ heq]
        exact h
      · rw [hmono _ _ heq]
        exact ih _ _ h
    · rw [if_neg hcond]
      exact ih _ _ h

/-- A successful loop pass is exactly a successful recursive call on the
board with some legal candidate written into cell `j` (stated against the
original board `b`; the loop actually runs on `b` with the previous
candidate `w` still in cell `j`). -/
theorem tryValues_true {recur : Board → Option (Bool × Board)}
    (hrec : ∀ n r, recur n = some (false, r) → r = n)
    {b : Board} {j : Nat} (h0 : cell b j = 0) :
    ∀ vals w b', (∀ v ∈ vals, w < v) → List.Pairwise (· < ·) vals →
      tryValues recur (setCell b j w) j vals = some (true, b') →
      ∃ v ∈ vals, valuePossibleAt b v j = true ∧ recur (setCell b j v) = some (true, b') := by
  intro vals
  induction vals with
  | nil =>
    intro w b' _ _ h
    rw [tryValues] at h
    simp at h
  | cons i rest ih =>
    intro w b' hw hpair h
    have hi1 : 1 ≤ i := by have := hw i (List.mem_cons_self i rest); omega
    have hleg_eq : valuePossibleAt (setCell b j w) i j = valuePossibleAt b i j :=
      valuePossibleAt_setCell_self b h0 (Nat.ne_of_lt (hw i (List.mem_cons_self i rest))) hi1 j
    rw [tryValues, hleg_eq] at h
    split at h <;> rename_i hcond
    · rw [setCell_setCell] at h
      split at h <;> rename_i heq
      · cases h
      · rename_i x
        cases h
        exact ⟨i, List.mem_cons_self i rest, hcond, heq⟩
      · rename_i x
        have hx : x = setCell b j i := hrec _ _ heq
        subst hx
        obtain ⟨v, hv, hlegv, hsucc⟩ :=
          ih i b' (fun v hv => List.rel_of_pairwise_cons hpair hv) hpair.of_cons h
        exact ⟨v, List.mem_cons_of_mem i hv, hlegv, hsucc⟩
    · obtain ⟨v, hv, hlegv, hsucc⟩ :=
        ih w b' (fun v hv => hw v (List.mem_cons_of_mem i hv)) hpair.of_cons h
      exact ⟨v, List.mem_cons_of_mem i hv, hlegv, hsucc⟩

/-- Conversely, when some legal candidate's recursive call succeeds and the
recursion is total, the loop succeeds. -/
theorem tryValues_true_of_exists {recur : Board → Option (Bool × Board)}
    (hrec : ∀ n r, recur n = some (false, r) → r = n)
    (htot : ∀ n, (recur n).isSome)
    {b : Board} {j : Nat} (h0 : cell b j = 0) :
    ∀ vals w, (∀ v ∈ vals, w < v) → List.Pairwise (· < ·) vals →
      (∃ v ∈ vals, valuePossibleAt b v j = true ∧
        ∃ s, recur (setCell b j v) = some (true, s)) →
      ∃ b', tryValues recur (setCell b j w) j vals = some (true, b') := by
  intro vals
  induction vals with
  | nil =>
    rintro w _ _ ⟨v, hv, _⟩
    cases hv
  | cons i rest ih =>
    rintro w hw hpair ⟨v, hv, hlegv, s, hsucc⟩
    have hi1 : 1 ≤ i := by have := hw i (List.mem_cons_self i rest); omega
    have hleg_eq : valuePossibleAt (setCell b j w) i j = valuePossibleAt b i j :=
      valuePossibleAt_setCell_self b h0 (Nat.ne_of_lt (hw i (List.mem_cons_self i rest))) hi1 j
    rw [tryValues, hleg_eq]
    by_cases hcond : valuePossibleAt b i j = true
    · rw [if_pos hcond, setCell_setCell]
      rcases hres : recur (setCell b j i) with _ | ⟨_ | _, x⟩
      · exact absurd (htot (setCell b j i)) (by rw [hres]; simp)
      · have hx : x = setCell b j i := hrec _ _ hres
        subst hx
        rcases List.mem_cons.mp hv with rfl | hvrest
        · rw [hres] at hsucc
          cases hsucc
        · exact ih i (fun u hu => List.rel_of_pairwise_cons hpair hu) hpair.of_cons
            ⟨v, hvrest, hlegv, s, hsucc⟩
      · exact ⟨x, rfl⟩
    · have hvi : v ≠ i := fun hh => hcond (hh ▸ hlegv)
      rw [if_neg hcond]
      rcases List.mem_cons.mp hv with rfl | hvrest
      · exact absurd rfl hvi
      · exact ih w (fun u hu => hw u (List.mem_cons_of_mem i hu)) hpair.of_cons
          ⟨v, hvrest, hlegv, s, hsucc⟩

/-! ### The sequential backtracker -/

theorem solveInnerF_succ (fuel : Nat) (b : Board) (idx : Nat) :
    solveInnerF (fuel + 1) b idx =
      if findNextFieldNotSetAlready b idx = 81 then some (true, b)
      else tryValues (fun b' => solveInnerF fuel b' (findNextFieldNotSetAlready b idx + 1))
        b (findNextFieldNotSetAlready b idx) candidateValues := rfl

/-- Failure restores the board exactly (claim C4's engine). -/
theorem solveInnerF_false :
    ∀ (fuel : Nat) (idx : Nat) (b b' : Board), idx ≤ 81 →
      solveInnerF fuel b idx = some (false, b') → b' = b := by
  intro fuel
  induction fuel with
  | zero => intro idx b b' _ h; cases h
  | succ fuel ih =>
    intro idx b b' hidx h
    rw [solveInnerF_succ] at h
    split at h <;> rename_i hj
    · cases h
    · have hjlt : findNextFieldNotSetAlready b idx < 81 :=
        Nat.lt_of_le_of_ne (findNext_le b hidx) hj
      have hcell := findNext_cell b hidx hjlt
      have hres := tryValues_false
        (fun n r hr => ih (findNextFieldNotSetAlready b idx + 1) n r (by omega) hr)
        (findNextFieldNotSetAlready b idx) candidateValues b b' h
      rw [hres, setCell_of_cell_eq hcell]

/-- Termination: with fuel `82 - idx` available the search always answers. -/
theorem solveInnerF_isSome :
    ∀ (fuel idx : Nat), idx ≤ 81 → 82 - idx ≤ fuel →
      ∀ b : Board, (solveInnerF fuel b idx).isSome := by
  intro fuel
  induction fuel with
  | zero => intro idx h1 h2; omega
  | succ fuel ih =>
    intro idx h1 h2 b
    rw [solveInnerF_succ]
    split
    · rfl
    · rename_i hj
      have hjge := findNext_ge b idx
      have hjlt : findNextFieldNotSetAlready b idx < 81 :=
        Nat.lt_of_le_of_ne (findNext_le b h1) hj
      exact tryValues_isSome
        (fun n => ih (findNextFieldNotSetAlready b idx + 1) (by omega) (by omega) n)
        _ candidateValues b

/-- Results are stable under adding fuel. -/
theorem solveInnerF_mono :
    ∀ (fuel fuel' : Nat), fuel ≤ fuel' →
      ∀ (b : Board) (idx : Nat) (r : Bool × Board),
        solveInnerF fuel b idx = some r → solveInnerF fuel' b idx = some r := by
  intro fuel
  induction fuel with
  | zero => intro fuel' _ b idx r h; cases h
  | succ fuel ih =>
    intro fuel' hle b idx r h
    obtain ⟨f2, rfl⟩ : ∃ f2, fuel' = f2 + 1 := ⟨fuel' - 1, by omega⟩
    rw [solveInnerF_succ] at h ⊢
    split at h <;> rename_i hj
    · rw [if_pos hj]; exact h
    · rw [if_neg hj]
      exact tryValues_mono (fun n rr hh => ih f2 (by omega) n _ rr hh) _ candidateValues b r h

/-- Any two sufficient fuels give the same result. -/
theorem solveInnerF_fuel_eq {b : Board} {idx fuel fuel' : Nat} (hidx : idx ≤ 81)
    (hf : 82 - idx ≤ fuel) (hf' : 82 - idx ≤ fuel') :
    solveInnerF fuel b idx = solveInnerF fuel' b idx := by
  rcases Nat.le_total fuel fuel' with hle | hle
  · obtain ⟨r, hr⟩ := Option.isSome_iff_exists.mp (solveInnerF_isSome fuel idx hidx hf b)
    rw [hr, solveInnerF_mono fuel fuel' hle b idx r hr]
  · obtain ⟨r, hr⟩ := Option.isSome_iff_exists.mp (solveInnerF_isSome fuel' idx hidx hf' b)
    rw [hr, solveInnerF_mono fuel' fuel hle b idx r hr]

/-- A success that still has an empty cell `j` decomposes into: some legal
candidate `v` is written at `j` and the recursion from `j + 1` succeeds with
the same final board. -/
theorem solveInnerF_true_step {fuel idx : Nat} {b b' : Board} {j : Nat}
    (hidx : idx ≤ 81) (hjdef : findNextFieldNotSetAlready b idx = j) (hj : j ≠ 81)
    (h : solveInnerF (fuel + 1) b idx = some (true, b')) :
    ∃ v ∈ candidateValues, valuePossibleAt b v j = true ∧
      solveInnerF fuel (setCell b j v) (j + 1) = some (true, b') := by
  have hjlt : j < 81 := Nat.lt_of_le_of_ne (hjdef ▸ findNext_le b hidx) hj
  have hcell : cell b j = 0 := hjdef ▸ findNext_cell b hidx (hjdef ▸ hjlt)
  rw [solveInnerF_succ, hjdef, if_neg hj] at h
  have hb0 : setCell b j 0 = b := setCell_of_cell_eq hcell
  exact tryValues_true
    (fun n r hr => solveInnerF_false fuel (j + 1) n r (by omega) hr)
    hcell candidateValues 0 b'
    (fun v hv => by have := mem_candidateValues.mp hv; omega)
    candidateValues_sorted (by rw [hb0]; exact h)

/-- Conversely, a successful legal branch at the first empty cell makes the
search succeed. -/
theorem solveInnerF_true_of_branch {fuel idx : Nat} {b : Board} {j : Nat}
    (hidx : idx ≤ 81) (hjdef : findNextFieldNotSetAlready b idx = j) (hj : j ≠ 81)
    (hfuel : 81 - j ≤ fuel)
    (hex : ∃ v ∈ candidateValues, valuePossibleAt b v j = true ∧
      ∃ s, solveInnerF fuel (setCell b j v) (j + 1) = some (true, s)) :
    ∃ b', solveInnerF (fuel + 1) b idx = some (true, b') := by
  have hjlt : j < 81 := Nat.lt_of_le_of_ne (hjdef ▸ findNext_le b hidx) hj
  have hcell : cell b j = 0 := hjdef ▸ findNext_cell b hidx (hjdef ▸ hjlt)
  have hb0 : setCell b j 0 = b := setCell_of_cell_eq hcell
  obtain ⟨b', hb'⟩ := tryValues_true_of_exists
    (fun n r hr => solveInnerF_false fuel (j + 1) n r (by omega) hr)
    (fun n => solveInnerF_isSome fuel (j + 1) (by omega) (by omega) n)
    hcell candidateValues 0
    (fun v hv => by have := mem_candidateValues.mp hv; omega)
    candidateValues_sorted hex
  refine ⟨b', ?_⟩
  rw [solveInnerF_succ, hjdef, if_neg hj, ← hb0]
  exact hb'

/-- Master properties of a successful search: length is preserved, clue
cells and cells before `idx` are untouched, cells from `idx` on are filled,
and every changed cell holds a value in `1..9`. -/
theorem solveInnerF_true_props :
    ∀ (fuel idx : Nat) (b b' : Board), idx ≤ 81 → b.length = 81 →
      solveInnerF fuel b idx = some (true, b') →
      b'.length = 81 ∧
      (∀ k, cell b k ≠ 0 → cell b' k = cell b k) ∧
      (∀ k < idx, cell b' k = cell b k) ∧
      (∀ k, idx ≤ k → k < 81 → cell b' k ≠ 0) ∧
      (∀ k < 81, cell b' k = cell b k ∨ (1 ≤ cell b' k ∧ cell b' k ≤ 9)) := by
  intro fuel
  induction fuel with
  | zero => intro idx b b' _ _ h; cases h
  | succ fuel ih =>
    intro idx b b' hidx hlen h
    by_cases hj : findNextFieldNotSetAlready b idx = 81
    · rw [solveInnerF_succ, if_pos hj] at h
      cases h
      refine ⟨hlen, fun k _ => rfl, fun k _ => rfl, fun k hk1 hk2 => ?_, fun k _ => Or.inl rfl⟩
      exact findNext_min b idx k hk1 (hj ▸ hk2)
    · obtain ⟨v, hv, hleg, hsucc⟩ := solveInnerF_true_step hidx rfl hj h
      set j := findNextFieldNotSetAlready b idx with hjdef
      have hjge : idx ≤ j := findNext_ge b idx
      have hjlt : j < 81 := Nat.lt_of_le_of_ne (findNext_le b hidx) hj
      have hcell : cell b j = 0 := findNext_cell b hidx hjlt
      have hv19 := mem_candidateValues.mp hv
      have hlen1 : (setCell b j v).length = 81 := by rw [length_setCell]; exact hlen
      have hbj : cell (setCell b j v) j = v := cell_setCell_self b j v (by omega)
      obtain ⟨hl, hc, hb, hd, he⟩ := ih (j + 1) (setCell b j v) b' (by omega) hlen1 hsucc
      refine ⟨hl, ?_, ?_, ?_, ?_⟩
      · intro k hk
        have hkj : k ≠ j := fun hh => hk (hh ▸ hcell)
        rw [← cell_setCell_ne b j v hkj] at hk ⊢
        exact hc k hk
      · intro k hk
        rw [hb k (by omega), cell_setCell_ne b j v (by omega)]
      · intro k hk1 hk2
        rcases Nat.lt_trichotomy k j with hkj | rfl | hkj
        · have hbk : cell b k ≠ 0 := findNext_min b idx k hk1 hkj
          rw [← cell_setCell_ne b j v (by omega)] at hbk
          rw [hc k hbk]
          exact hbk
        · rw [hc j (by rw [hbj]; omega), hbj]
          omega
        · exact hd k (by omega) hk2
      · intro k hk
        rcases he k hk with heq | hrange
        · rcases eq_or_ne k j with rfl | hkj
          · rw [heq, hbj]
            exact Or.inr (by omega)
          · rw [heq, cell_setCell_ne b j v hkj]
            exact Or.inl rfl
        · exact Or.inr hrange

/-- A search (success or failure) preserves the board invariant. -/
theorem solveInnerF_valid :
    ∀ (fuel idx : Nat) (b b' : Board) (r : Bool), idx ≤ 81 → b.length = 81 → Valid b →
      solveInnerF fuel b idx = some (r, b') → Valid b' := by
  intro fuel
  induction fuel with
  | zero => intro idx b b' r _ _ _ h; cases h
  | succ fuel ih =>
    intro idx b b' r hidx hlen hval h
    cases r with
    | false =>
      rw [solveInnerF_false (fuel + 1) idx b b' hidx h]
      exact hval
    | true =>
      by_cases hj : findNextFieldNotSetAlready b idx = 81
      · rw [solveInnerF_succ, if_pos hj] at h
        cases h
        exact hval
      · obtain ⟨v, hv, hleg, hsucc⟩ := solveInnerF_true_step hidx rfl hj h
        set j := findNextFieldNotSetAlready b idx with hjdef
        have hjlt : j < 81 := Nat.lt_of_le_of_ne (findNext_le b hidx) hj
        have hcell : cell b j = 0 := findNext_cell b hidx hjlt
        have hv19 := mem_candidateValues.mp hv
        exact ih (j + 1) (setCell b j v) b' true (by omega)
          (by rw [length_setCell]; exact hlen)
          (hval.setCell hlen hjlt hcell hv19.1 hleg) hsucc

/-- Soundness: a successful search from index 0 returns a solution of its
input (given a well-formed input board). -/
theorem solveInner_sound {b s : Board} (hlen : b.length = 81) (hval : Valid b)
    (hrange : ∀ k < 81, cell b k ≤ 9) (h : solveInner b 0 = some (true, s)) :
    IsSolutionOf b s := by
  obtain ⟨hl, hc, _, hd, he⟩ :=
    solveInnerF_true_props 82 0 b s (by omega) hlen h
  have hvalid : Valid s := solveInnerF_valid 82 0 b s true (by omega) hlen hval h
  refine ⟨hl, fun k hk hne => hc k hne, fun k hk => ?_, hvalid⟩
  have hfill : cell s k ≠ 0 := hd k (Nat.zero_le k) hk
  rcases he k hk with heq | hrange'
  · rw [heq] at hfill ⊢
    exact ⟨by omega, hrange k hk⟩
  · exact hrange'

/-- Completeness: if some solution extends the current board, the search
finds one (not necessarily that one). -/
theorem solveInnerF_complete (s : Board) (hslen : s.length = 81)
    (hsrange : ∀ k < 81, 1 ≤ cell s k ∧ cell s k ≤ 9) (hsval : Valid s) :
    ∀ (fuel idx : Nat) (cur : Board), idx ≤ 81 → 82 - idx ≤ fuel → cur.length = 81 →
      (∀ k < 81, cell cur k ≠ 0 → cell s k = cell cur k) →
      ∃ r, solveInnerF fuel cur idx = some (true, r) := by
  intro fuel
  induction fuel with
  | zero => intro idx cur hidx hfuel _ _; omega
  | succ fuel ih =>
    intro idx cur hidx hfuel hlen hext
    by_cases hj : findNextFieldNotSetAlready cur idx = 81
    · exact ⟨cur, by rw [solveInnerF_succ, if_pos hj]⟩
    · set j := findNextFieldNotSetAlready cur idx with hjdef
      have hjge : idx ≤ j := findNext_ge cur idx
      have hjlt : j < 81 := Nat.lt_of_le_of_ne (findNext_le cur hidx) hj
      have hcell : cell cur j = 0 := findNext_cell cur hidx hjlt
      have hsj := hsrange j hjlt
      have hvmem : cell s j ∈ candidateValues := mem_candidateValues.mpr hsj
      have hleg : valuePossibleAt cur (cell s j) j = true := by
        rcases hlegb : valuePossibleAt cur (cell s j) j with _ | _
        · exfalso
          obtain ⟨q, hqmem, hqcell⟩ := (valuePossibleAt_eq_false_iff cur (cell s j) j).mp hlegb
          obtain ⟨hq81, hreg⟩ := (mem_checkedCells hjlt).mp hqmem
          have hqj : q ≠ j := fun hh => by rw [hh, hcell] at hqcell; omega
          have hsq : cell s q = cell cur q := hext q hq81 (by omega)
          exact hsval j hjlt q hq81 (fun hh => hqj hh.symm) hreg (by omega)
            (by rw [hsq, hqcell])
        · rfl
      have hext1 : ∀ k < 81, cell (setCell cur j (cell s j)) k ≠ 0 →
          cell s k = cell (setCell cur j (cell s j)) k := by
        intro k hk hkne
        rcases eq_or_ne k j with rfl | hkj
        · rw [cell_setCell_self cur j (cell s j) (by omega)]
        · rw [cell_setCell_ne cur j (cell s j) hkj] at hkne ⊢
          exact hext k hk hkne
      obtain ⟨r, hr⟩ := ih (j + 1) (setCell cur j (cell s j)) (by omega) (by omega)
        (by rw [length_setCell]; exact hlen) hext1
      exact solveInnerF_true_of_branch hidx hjdef.symm hj (by omega)
        ⟨cell s j, hvmem, hleg, r, hr⟩

/-! ### Forced cells and uniqueness of the example's solution -/

theorem boards_ext {s c : Board} (hs : s.length = 81) (hc : c.length = 81)
    (h : ∀ k < 81, cell s k = cell c k) : s = c := by
  apply List.ext_getElem (by omega)
  intro i h1 h2
  have hcell := h i (by omega)
  rwa [cell, cell, List.getD_eq_getElem?_getD, List.getD_eq_getElem?_getD,
    List.getElem?_eq_getElem h1, List.getElem?_eq_getElem h2,
    Option.getD_some, Option.getD_some] at hcell

theorem forcedAt_spec {b : Board} {k v : Nat} (h : forcedAt b k v = true) :
    k < 81 ∧ 1 ≤ v ∧ v ≤ 9 ∧ cell b k = 0 ∧
      ∀ w, 1 ≤ w → w ≤ 9 → w ≠ v → valuePossibleAt b w k = false := by
  simp only [forcedAt, Bool.and_eq_true, decide_eq_true_eq, beq_iff_eq,
    List.all_eq_true, Bool.or_eq_true, Bool.not_eq_true'] at h
  obtain ⟨⟨⟨⟨hk, hv1⟩, hv9⟩, hcell⟩, hall⟩ := h
  refine ⟨hk, hv1, hv9, hcell, fun w hw1 hw9 hwv => ?_⟩
  rcases hall w (mem_candidateValues.mpr ⟨hw1, hw9⟩) with heq | hfalse
  · exact absurd heq hwv
  · exact hfalse

/-- A forced move changes nothing about which boards solve the puzzle. -/
theorem solutionOf_setCell_iff {b : Board} {k v : Nat} (hlen : b.length = 81)
    (hf : forcedAt b k v = true) (s : Board) :
    IsSolutionOf b s ↔ IsSolutionOf (setCell b k v) s := by
  obtain ⟨hk81, hv1, hv9, hcell, hforce⟩ := forcedAt_spec hf
  constructor
  · rintro ⟨hslen, hext, hrange, hval⟩
    have hsk : cell s k = v := by
      by_contra hne
      obtain ⟨hw1, hw9⟩ := hrange k hk81
      obtain ⟨q, hqmem, hqcell⟩ :=
        (valuePossibleAt_eq_false_iff b (cell s k) k).mp (hforce _ hw1 hw9 hne)
      obtain ⟨hq81, hreg⟩ := (mem_checkedCells hk81).mp hqmem
      have hqk : q ≠ k := fun hh => by rw [hh, hcell] at hqcell; omega
      have hsq : cell s q = cell b q := hext q hq81 (by omega)
      exact hval k hk81 q hq81 (fun hh => hqk hh.symm) hreg (by omega)
        (by rw [hsq, hqcell])
    refine ⟨hslen, fun m hm hmne => ?_, hrange, hval⟩
    rcases eq_or_ne m k with rfl | hmk
    · rw [cell_setCell_self b m v (by omega)]
      exact hsk
    · rw [cell_setCell_ne b k v hmk] at hmne ⊢
      exact hext m hm hmne
  · rintro ⟨hslen, hext, hrange, hval⟩
    refine ⟨hslen, fun m hm hmne => ?_, hrange, hval⟩
    have hmk : m ≠ k := fun hh => hmne (hh ▸ hcell)
    have := hext m hm (by rw [cell_setCell_ne b k v hmk]; exact hmne)
    rwa [cell_setCell_ne b k v hmk] at this

theorem applyChain_solutionOf_iff :
    ∀ (steps : List (Nat × Nat)) (b c : Board), b.length = 81 →
      applyChain b steps = some c →
      c.length = 81 ∧ ∀ s, (IsSolutionOf b s ↔ IsSolutionOf c s) := by
  intro steps
  induction steps with
  | nil =>
    intro b c hlen h
    rw [applyChain] at h
    cases h
    exact ⟨hlen, fun s => Iff.rfl⟩
  | cons kv rest ih =>
    intro b c hlen h
    obtain ⟨k, v⟩ := kv
    rw [applyChain] at h
    split at h <;> rename_i hf
    · obtain ⟨hclen, hiff⟩ := ih (setCell b k v) c (by rw [length_setCell]; exact hlen) h
      exact ⟨hclen, fun s => (solutionOf_setCell_iff hlen hf s).trans (hiff s)⟩
    · cases h

/-- A full, valid, in-range board is its own unique solution. -/
theorem solutionOf_full {c : Board} (hlen : c.length = 81)
    (hrange : ∀ k < 81, 1 ≤ cell c k ∧ cell c k ≤ 9) (hval : Valid c) :
    ∀ s, IsSolutionOf c s ↔ s = c := by
  intro s
  constructor
  · rintro ⟨hslen, hext, _, _⟩
    refine boards_ext hslen hlen fun k hk => ?_
    have := hrange k hk
    exact hext k hk (by omega)
  · rintro rfl
    exact ⟨hlen, fun k _ _ => rfl, hrange, hval⟩

theorem exampleBoard_length : exampleBoard.length = 81 := by decide

set_option maxRecDepth 10000 in
set_option maxHeartbeats 2000000 in
theorem exampleBoard_valid : Valid exampleBoard := by decide

set_option maxRecDepth 10000 in
theorem exampleBoard_range : ∀ k < 81, cell exampleBoard k ≤ 9 := by decide

theorem solvedBoard_length : solvedBoard.length = 81 := by decide

set_option maxRecDepth 10000 in
theorem solvedBoard_range : ∀ k < 81, 1 ≤ cell solvedBoard k ∧ cell solvedBoard k ≤ 9 := by
  decide

set_option maxRecDepth 10000 in
set_option maxHeartbeats 2000000 in
theorem solvedBoard_valid : Valid solvedBoard := by decide

set_option maxRecDepth 10000 in
set_option maxHeartbeats 4000000 in
theorem forcedChain_ok : applyChain exampleBoard forcedChain = some solvedBoard := by decide

/-- `solvedBoard` solves the example, and it is the only solution. -/
theorem exampleBoard_unique_solution :
    IsSolutionOf exampleBoard solvedBoard ∧
      ∀ t, IsSolutionOf exampleBoard t → t = solvedBoard := by
  obtain ⟨_, hiff⟩ :=
    applyChain_solutionOf_iff forcedChain exampleBoard solvedBoard exampleBoard_length
      forcedChain_ok
  have hfull := solutionOf_full solvedBoard_length solvedBoard_range solvedBoard_valid
  constructor
  · exact (hiff solvedBoard).mpr ((hfull solvedBoard).mpr rfl)
  · intro t ht
    exact (hfull t).mp ((hiff t).mp ht)

/-- The sequential solver is pinned on the example: it must succeed
(completeness plus existence of a solution), its result must be a solution
(soundness), and the solution is unique (the forced chain). -/
theorem solveInner_example_eq : solveInner exampleBoard 0 = some (true, solvedBoard) := by
  obtain ⟨hex, huni⟩ := exampleBoard_unique_solution
  obtain ⟨r, hr⟩ := solveInnerF_complete solvedBoard solvedBoard_length solvedBoard_range
    solvedBoard_valid 82 0 exampleBoard (by omega) (by omega) exampleBoard_length
    (fun k hk hne => hex.2.1 k hk hne)
  have hsol : IsSolutionOf exampleBoard r :=
    solveInner_sound exampleBoard_length exampleBoard_valid exampleBoard_range hr
  rw [show solveInner exampleBoard 0 = solveInnerF 82 exampleBoard 0 from rfl, hr,
    huni r hsol]

/-! ### The claims -/

/-- C1: for every board `B`, index `i ≤ 80` with `B[i] = 0` and value
`v ∈ [1,9]`, the legality check `valuePossibleAt` returns `false` iff `v`
already appears in `i`'s row (the cells with `index/9 = i/9`), `i`'s column
(the cells with `index%9 = i%9`), or `i`'s 3×3 block (the 9 offsets from the
anchor `(i/9)/3*27 + (i%9)/3*3`); it returns `true` otherwise. -/
theorem claim_c1_isLegal (b : Board) (i v : Nat) (hi : i ≤ 80) (h0 : cell b i = 0)
    (hv1 : 1 ≤ v) (hv9 : v ≤ 9) :
    valuePossibleAt b v i = false ↔
      ((∃ j ≤ 80, j / 9 = i / 9 ∧ cell b j = v) ∨
       (∃ j ≤ 80, j % 9 = i % 9 ∧ cell b j = v) ∨
       (∃ o ∈ blockOffsets, cell b (i / 9 / 3 * 27 + i % 9 / 3 * 3 + o) = v)) := by
  have hanchor : i / 9 / 3 * 3 * 9 + i % 9 / 3 * 3 = i / 9 / 3 * 27 + i % 9 / 3 * 3 := by
    omega
  rw [valuePossibleAt_eq_false_iff]
  simp only [checkedCells, List.mem_append, rowCells, colCells, blockCellsAt,
    List.mem_map, List.mem_range]
  constructor
  · rintro ⟨q, (⟨k, hk, rfl⟩ | ⟨k, hk, rfl⟩) | ⟨o, ho, rfl⟩, hcv⟩
    · exact Or.inl ⟨i / 9 * 9 + k, by omega, by omega, hcv⟩
    · exact Or.inr (Or.inl ⟨i % 9 + k * 9, by omega, by omega, hcv⟩)
    · exact Or.inr (Or.inr ⟨o, ho, by rw [← hanchor]; exact hcv⟩)
  · rintro (⟨j, hj, hjr, hcv⟩ | ⟨j, hj, hjc, hcv⟩ | ⟨o, ho, hcv⟩)
    · exact ⟨j, Or.inl (Or.inl ⟨j % 9, by omega, by omega⟩), hcv⟩
    · exact ⟨j, Or.inl (Or.inr ⟨j / 9, by omega, by omega⟩), hcv⟩
    · exact ⟨_, Or.inr ⟨o, ho, rfl⟩, by rw [hanchor]; exact hcv⟩

/-- C4: the sequential backtracker is atomic on failure — a failing
`solveInner(idx)` call returns the board exactly as it received it (the
exhausted cell having been reset to 0). -/
theorem claim_c4_failure_restores (b : Board) (idx : Nat) (b' : Board) (hidx : idx ≤ 81)
    (h : solveInner b idx = some (false, b')) : b' = b :=
  solveInnerF_false 82 idx b b' hidx h

/-- C5: the sequential backtracker terminates on every 81-cell board and
start index: it returns a definite success/failure verdict (fuel `82`
never runs out, because the cell index strictly increases on descent). -/
theorem claim_c5_terminates (b : Board) (idx : Nat) (hlen : b.length = 81)
    (hidx : idx ≤ 81) : ∃ (r : Bool) (b' : Board), solveInner b idx = some (r, b') := by
  obtain ⟨⟨r, b'⟩, h⟩ :=
    Option.isSome_iff_exists.mp (solveInnerF_isSome 82 idx hidx (by omega) b)
  exact ⟨r, b', h⟩

/-- C7: the scan returns the smallest `j ∈ [i, 80]` with `B[j] = 0`
(everything between `i` and `j` is nonzero), and the sentinel 81 when no
empty cell remains at or after `i`. -/
theorem claim_c7_firstEmpty (b : Board) (i : Nat) (hi : i ≤ 81) :
    (findNextFieldNotSetAlready b i ≤ 80 ∧ i ≤ findNextFieldNotSetAlready b i ∧
      cell b (findNextFieldNotSetAlready b i) = 0 ∧
      ∀ k, i ≤ k → k < findNextFieldNotSetAlready b i → cell b k ≠ 0) ∨
    (findNextFieldNotSetAlready b i = 81 ∧ ∀ j, i ≤ j → j ≤ 80 → cell b j ≠ 0) := by
  rcases Nat.lt_or_ge (findNextFieldNotSetAlready b i) 81 with hlt | hge
  · exact Or.inl ⟨by omega, findNext_ge b i, findNext_cell b hi hlt, findNext_min b i⟩
  · have h81 : findNextFieldNotSetAlready b i = 81 := by
      have := findNext_le b hi
      omega
    exact Or.inr ⟨h81, fun j h1 h2 => findNext_min b i j h1 (by omega)⟩

/-- C10: the sequential backtracker preserves the clues — whether it
succeeds or fails, every cell that was nonzero when `solveInner(idx)` was
called holds the same value on return. -/
theorem claim_c10_preserves_clues (b : Board) (idx : Nat) (r : Bool) (b' : Board)
    (hlen : b.length = 81) (hidx : idx ≤ 81)
    (h : solveInner b idx = some (r, b')) :
    ∀ k, cell b k ≠ 0 → cell b' k = cell b k := by
  cases r with
  | false =>
    rw [solveInnerF_false 82 idx b b' hidx h]
    exact fun k _ => rfl
  | true =>
    exact (solveInnerF_true_props 82 idx b b' hidx hlen h).2.1

/-- C9: a fully-filled board is reported as an immediate success: the
sequential backtracker returns `true` with the board untouched, and the
parallel coordinator can only report "already solved" — no validity check
is consulted, so this holds even for a filled board violating the
row/column/block constraints. -/
theorem claim_c9_full_board (b : Board) (hfull : ∀ k < 81, cell b k ≠ 0) :
    solveInner b 0 = some (true, b) ∧
      ∀ o, SolveCanReturn b o ↔ o = SolveOutcome.alreadySolved b := by
  have h81 : findNextFieldNotSetAlready b 0 = 81 :=
    findNext_eq_81 b (by omega) (fun k _ hk => hfull k hk)
  constructor
  · rw [show solveInner b 0 = solveInnerF (81 + 1) b 0 from rfl, solveInnerF_succ,
      if_pos h81]
  · intro o
    simp only [SolveCanReturn, h81, if_pos]

/-- C6: on the concrete example input the solver succeeds and produces
exactly the expected solved board. -/
theorem claim_c6_example : solveInner exampleBoard 0 = some (true, solvedBoard) :=
  solveInner_example_eq

/-- Nine mutually-constraining, distinct, in-range cells hold each value of
`1..9` exactly once on a valid, in-range board. -/
theorem region_count {s : Board} (hvalid : Valid s)
    (hrange : ∀ k < 81, 1 ≤ cell s k ∧ cell s k ≤ 9)
    {cells : List Nat} (hnodup : cells.Nodup) (hlen9 : cells.length = 9)
    (hlt : ∀ k ∈ cells, k < 81) (hreg : ∀ p ∈ cells, ∀ q ∈ cells, p ≠ q → inSameRegion p q)
    {v : Nat} (hv1 : 1 ≤ v) (hv9 : v ≤ 9) :
    (cells.map (cell s)).count v = 1 := by
  have hinj : ∀ p ∈ cells, ∀ q ∈ cells, cell s p = cell s q → p = q := by
    intro p hp q hq heq
    by_contra hne
    have hp81 := hlt p hp
    have hq81 := hlt q hq
    have := hrange p hp81
    exact hvalid p hp81 q hq81 hne (hreg p hp q hq hne) (by omega) heq
  have hnodupv : (cells.map (cell s)).Nodup := hnodup.map_on hinj
  have hsub : (cells.map (cell s)).toFinset ⊆ Finset.Icc 1 9 := by
    intro x hx
    rw [List.mem_toFinset, List.mem_map] at hx
    obtain ⟨k, hk, rfl⟩ := hx
    have := hrange k (hlt k hk)
    rw [Finset.mem_Icc]
    omega
  have hcard : (Finset.Icc 1 9).card ≤ (cells.map (cell s)).toFinset.card := by
    rw [List.toFinset_card_of_nodup hnodupv, List.length_map, hlen9]
    simp
  have heq := Finset.eq_of_subset_of_card_le hsub hcard
  have hmem : v ∈ cells.map (cell s) := by
    rw [← List.mem_toFinset, heq, Finset.mem_Icc]
    omega
  have hle := List.nodup_iff_count_le_one.mp hnodupv v
  have hge := List.count_pos_iff.mpr hmem
  omega

theorem rowCells_facts : ∀ g < 9, (rowCells g).Nodup ∧ (rowCells g).length = 9 ∧
    (∀ k ∈ rowCells g, k < 81) ∧
    ∀ p ∈ rowCells g, ∀ q ∈ rowCells g, p ≠ q → inSameRegion p q := by decide

theorem colCells_facts : ∀ g < 9, (colCells g).Nodup ∧ (colCells g).length = 9 ∧
    (∀ k ∈ colCells g, k < 81) ∧
    ∀ p ∈ colCells g, ∀ q ∈ colCells g, p ≠ q → inSameRegion p q := by decide

theorem blockCells_facts : ∀ g < 9,
    (blockCellsAt (g / 3 * 27 + g % 3 * 3)).Nodup ∧
    (blockCellsAt (g / 3 * 27 + g % 3 * 3)).length = 9 ∧
    (∀ k ∈ blockCellsAt (g / 3 * 27 + g % 3 * 3), k < 81) ∧
    ∀ p ∈ blockCellsAt (g / 3 * 27 + g % 3 * 3),
      ∀ q ∈ blockCellsAt (g / 3 * 27 + g % 3 * 3), p ≠ q → inSameRegion p q := by decide

/-- C2: from a well-formed initial board (81 cells, values `≤ 9`, no
duplicate nonzero value in any row/column/block), a successful sequential
search returns a board with no empty cell in which every row, every column
and every 3×3 block holds each digit `1..9` exactly once. -/
theorem claim_c2_solved_invariant (b s : Board) (hlen : b.length = 81) (hval : Valid b)
    (hrange : ∀ k < 81, cell b k ≤ 9) (h : solveInner b 0 = some (true, s)) :
    (∀ k < 81, cell s k ≠ 0) ∧
    ∀ v, 1 ≤ v → v ≤ 9 → ∀ g < 9,
      ((rowCells g).map (cell s)).count v = 1 ∧
      ((colCells g).map (cell s)).count v = 1 ∧
      ((blockCellsAt (g / 3 * 27 + g % 3 * 3)).map (cell s)).count v = 1 := by
  obtain ⟨hslen, hext, hsrange, hsval⟩ := solveInner_sound hlen hval hrange h
  have hfull : ∀ k < 81, cell s k ≠ 0 := by
    intro k hk
    have := hsrange k hk
    omega
  refine ⟨hfull, fun v hv1 hv9 g hg => ?_⟩
  obtain ⟨hrn, hrl, hrb, hrr⟩ := rowCells_facts g hg
  obtain ⟨hcn, hcl, hcb, hcr⟩ := colCells_facts g hg
  obtain ⟨hbn, hbl, hbb, hbr⟩ := blockCells_facts g hg
  exact ⟨region_count hsval hsrange hrn hrl hrb hrr hv1 hv9,
    region_count hsval hsrange hcn hcl hcb hcr hv1 hv9,
    region_count hsval hsrange hbn hbl hbb hbr hv1 hv9⟩

/-- C3: the parallel decomposition is equivalent to the sequential search.
With `i` the first empty cell of `b`, the sequential search from 0 succeeds
iff some legal value `v ∈ [1,9]` at `i` makes the sequential search succeed
on the clone with `b[i] = v` from `i + 1` (exactly the branches `Solve`
forks); and when the puzzle's solution is unique, the sequential result and
any parallel-coordinator result are that same board. -/
theorem claim_c3_parallel_equiv (b : Board) (i : Nat) (hlen : b.length = 81)
    (hi : i = findNextFieldNotSetAlready b 0) (hne : ∃ k < 81, cell b k = 0) :
    ((∃ s, solveInner b 0 = some (true, s)) ↔
      ∃ v, 1 ≤ v ∧ v ≤ 9 ∧ valuePossibleAt b v i = true ∧
        ∃ s, solveInner (setCell b i v) (i + 1) = some (true, s)) ∧
    (∀ s s', (∀ k < 81, cell b k ≤ 9) → Valid b →
      (∀ t t', IsSolutionOf b t → IsSolutionOf b t' → t = t') →
      solveInner b 0 = some (true, s) → SolveCanReturn b (SolveOutcome.solved s') →
      s' = s) := by
  subst hi
  have hne81 : findNextFieldNotSetAlready b 0 ≠ 81 := by
    obtain ⟨k, hk, hk0⟩ := hne
    intro h81
    exact findNext_min b 0 k (Nat.zero_le k) (by omega) hk0
  have hjlt : findNextFieldNotSetAlready b 0 < 81 :=
    Nat.lt_of_le_of_ne (findNext_le b (by omega)) hne81
  have hcell : cell b (findNextFieldNotSetAlready b 0) = 0 :=
    findNext_cell b (by omega) hjlt
  constructor
  · constructor
    · rintro ⟨s, hs⟩
      obtain ⟨v, hvmem, hleg, hsucc⟩ :=
        @solveInnerF_true_step 81 0 b s (findNextFieldNotSetAlready b 0)
          (by omega) rfl hne81 hs
      obtain ⟨h1, h9⟩ := mem_candidateValues.mp hvmem
      refine ⟨v, h1, h9, hleg, s, ?_⟩
      rw [show solveInner (setCell b (findNextFieldNotSetAlready b 0) v)
          (findNextFieldNotSetAlready b 0 + 1) =
        solveInnerF 82 (setCell b (findNextFieldNotSetAlready b 0) v)
          (findNextFieldNotSetAlready b 0 + 1) from rfl,
        @solveInnerF_fuel_eq (setCell b (findNextFieldNotSetAlready b 0) v)
          (findNextFieldNotSetAlready b 0 + 1) 82 81 (by omega) (by omega) (by omega)]
      exact hsucc
    · rintro ⟨v, h1, h9, hleg, s, hs⟩
      have hvmem := mem_candidateValues.mpr ⟨h1, h9⟩
      have hs81 : solveInnerF 81 (setCell b (findNextFieldNotSetAlready b 0) v)
          (findNextFieldNotSetAlready b 0 + 1) = some (true, s) := by
        rw [@solveInnerF_fuel_eq (setCell b (findNextFieldNotSetAlready b 0) v)
          (findNextFieldNotSetAlready b 0 + 1) 81 82 (by omega) (by omega) (by omega)]
        exact hs
      exact @solveInnerF_true_of_branch 81 0 b (findNextFieldNotSetAlready b 0)
        (by omega) rfl hne81 (by omega) ⟨v, hvmem, hleg, s, hs81⟩
  · intro s s' hrange9 hval huniq hseq hpar
    have hsol_s : IsSolutionOf b s := solveInner_sound hlen hval hrange9 hseq
    simp only [SolveCanReturn, if_neg hne81] at hpar
    rcases hpar with ⟨v, s0, h1, h9, hleg, hsolve, heq⟩ | ⟨_, heq⟩
    · injection heq with heq'
      subst heq'
      have hval1 : Valid (setCell b (findNextFieldNotSetAlready b 0) v) :=
        hval.setCell hlen hjlt hcell h1 hleg
      have hlen1 : (setCell b (findNextFieldNotSetAlready b 0) v).length = 81 := by
        rw [length_setCell]; exact hlen
      have hbj : cell (setCell b (findNextFieldNotSetAlready b 0) v)
          (findNextFieldNotSetAlready b 0) = v :=
        cell_setCell_self b _ v (by omega)
      obtain ⟨hsl, hsc, hsb, hsd, hse⟩ :=
        solveInnerF_true_props 82 (findNextFieldNotSetAlready b 0 + 1) _ s'
          (by omega) hlen1 hsolve
      have hsval' : Valid s' :=
        solveInnerF_valid 82 (findNextFieldNotSetAlready b 0 + 1) _ s' true
          (by omega) hlen1 hval1 hsolve
      have hsol_par : IsSolutionOf b s' := by
        refine ⟨hsl, fun k hk hkne => ?_, fun k hk => ?_, hsval'⟩
        · have hkj : k ≠ findNextFieldNotSetAlready b 0 := fun hh => hkne (hh ▸ hcell)
          rw [← cell_setCell_ne b _ v hkj] at hkne ⊢
          exact hsc k hkne
        · have hnonzero : cell s' k ≠ 0 := by
            rcases Nat.lt_trichotomy k (findNextFieldNotSetAlready b 0) with hkj | rfl | hkj
            · have hbk : cell b k ≠ 0 := findNext_min b 0 k (Nat.zero_le k) hkj
              rw [← cell_setCell_ne b (findNextFieldNotSetAlready b 0) v
                (show k ≠ findNextFieldNotSetAlready b 0 by omega)] at hbk
              rw [hsb k (by omega)]
              exact hbk
            · rw [hsb _ (by omega), hbj]
              omega
            · exact hsd k (by omega) hk
          refine ⟨by omega, ?_⟩
          rcases hse k hk with heq2 | hrange2
          · rw [heq2]
            rcases eq_or_ne k (findNextFieldNotSetAlready b 0) with rfl | hkj
            · rw [hbj]; omega
            · rw [cell_setCell_ne b _ v hkj]
              exact hrange9 k hk
          · omega
      exact huniq s' s hsol_par hsol_s
    · cases heq

set_option maxHeartbeats 2000000 in
set_option maxRecDepth 10000 in
/-- C8: the rendering is deterministic and produces 9 rows (newline
separated, with a leading and a trailing newline) of the board's 9 cell
digits per row in row-major order, space-separated (each digit, 0 for an
empty cell, is followed by a space). -/
theorem claim_c8_rendering (b : Board) :
    boardString b =
      "\n" ++ sepBy "\n" ((List.range 9).map fun r =>
        sepBy " " ((List.range 9).map fun c => toString (cell b (9 * r + c))) ++ " ") ++
        "\n" := by
  have h81 : List.range 81 =
    [0, 1, 2, 3, 4, 5, 6, 7, 8, 9, 10, 11, 12, 13, 14, 15, 16, 17, 18, 19, 20,
     21, 22, 23, 24, 25, 26, 27, 28, 29, 30, 31, 32, 33, 34, 35, 36, 37, 38, 39,
     40, 41, 42, 43, 44, 45, 46, 47, 48, 49, 50, 51, 52, 53, 54, 55, 56, 57, 58,
     59, 60, 61, 62, 63, 64, 65, 66, 67, 68, 69, 70, 71, 72, 73, 74, 75, 76, 77,
     78, 79, 80] := rfl
  have h9 : List.range 9 = [0, 1, 2, 3, 4, 5, 6, 7, 8] := rfl
  apply String.ext
  rw [boardString, h81, h9]
  simp only [List.map_cons, List.map_nil, String.join, List.foldl_cons,
    List.foldl_nil, sepBy]
  norm_num

/-! ### Witnesses -/

theorem claim_c1_witness :
    (2 : Nat) ≤ 80 ∧ cell exampleBoard 2 = 0 ∧ (1 : Nat) ≤ 5 ∧ (5 : Nat) ≤ 9 ∧
    (valuePossibleAt exampleBoard 5 2 = false ↔
      ((∃ j ≤ 80, j / 9 = 2 / 9 ∧ cell exampleBoard j = 5) ∨
       (∃ j ≤ 80, j % 9 = 2 % 9 ∧ cell exampleBoard j = 5) ∨
       (∃ o ∈ blockOffsets, cell exampleBoard (2 / 9 / 3 * 27 + 2 % 9 / 3 * 3 + o) = 5))) :=
  ⟨by decide, by decide, by decide, by decide,
    claim_c1_isLegal exampleBoard 2 5 (by decide) (by decide) (by decide) (by decide)⟩

theorem claim_c2_witness :
    exampleBoard.length = 81 ∧ Valid exampleBoard ∧
    (∀ k < 81, cell exampleBoard k ≤ 9) ∧
    solveInner exampleBoard 0 = some (true, solvedBoard) ∧
    ((∀ k < 81, cell solvedBoard k ≠ 0) ∧
     ∀ v, 1 ≤ v → v ≤ 9 → ∀ g < 9,
       ((rowCells g).map (cell solvedBoard)).count v = 1 ∧
       ((colCells g).map (cell solvedBoard)).count v = 1 ∧
       ((blockCellsAt (g / 3 * 27 + g % 3 * 3)).map (cell solvedBoard)).count v = 1) :=
  ⟨exampleBoard_length, exampleBoard_valid, exampleBoard_range, solveInner_example_eq,
    claim_c2_solved_invariant exampleBoard solvedBoard exampleBoard_length
      exampleBoard_valid exampleBoard_range solveInner_example_eq⟩

theorem claim_c3_witness :
    exampleBoard.length = 81 ∧ (2 : Nat) = findNextFieldNotSetAlready exampleBoard 0 ∧
    (∃ k < 81, cell exampleBoard k = 0) ∧
    (((∃ s, solveInner exampleBoard 0 = some (true, s)) ↔
      ∃ v, 1 ≤ v ∧ v ≤ 9 ∧ valuePossibleAt exampleBoard v 2 = true ∧
        ∃ s, solveInner (setCell exampleBoard 2 v) (2 + 1) = some (true, s)) ∧
     (∀ s s', (∀ k < 81, cell exampleBoard k ≤ 9) → Valid exampleBoard →
      (∀ t t', IsSolutionOf exampleBoard t → IsSolutionOf exampleBoard t' → t = t') →
      solveInner exampleBoard 0 = some (true, s) →
      SolveCanReturn exampleBoard (SolveOutcome.solved s') → s' = s)) :=
  ⟨exampleBoard_length, by decide, by decide,
    claim_c3_parallel_equiv exampleBoard 2 exampleBoard_length (by decide) (by decide)⟩

theorem claim_c4_witness :
    (0 : Nat) ≤ 81 ∧ solveInner unsolvableBoard 0 = some (false, unsolvableBoard) ∧
    unsolvableBoard = unsolvableBoard :=
  ⟨by decide, by decide,
    claim_c4_failure_restores unsolvableBoard 0 unsolvableBoard (by decide) (by decide)⟩

theorem claim_c5_witness :
    unsolvableBoard.length = 81 ∧ (0 : Nat) ≤ 81 ∧
    (∃ (r : Bool) (b' : Board), solveInner unsolvableBoard 0 = some (r, b')) :=
  ⟨by decide, by decide, claim_c5_terminates unsolvableBoard 0 (by decide) (by decide)⟩

theorem claim_c7_witness :
    (0 : Nat) ≤ 81 ∧
    ((findNextFieldNotSetAlready exampleBoard 0 ≤ 80 ∧
      0 ≤ findNextFieldNotSetAlready exampleBoard 0 ∧
      cell exampleBoard (findNextFieldNotSetAlready exampleBoard 0) = 0 ∧
      ∀ k, 0 ≤ k → k < findNextFieldNotSetAlready exampleBoard 0 →
        cell exampleBoard k ≠ 0) ∨
     (findNextFieldNotSetAlready exampleBoard 0 = 81 ∧
      ∀ j, 0 ≤ j → j ≤ 80 → cell exampleBoard j ≠ 0)) :=
  ⟨by decide, claim_c7_firstEmpty exampleBoard 0 (by decide)⟩

theorem claim_c9_witness :
    (∀ k < 81, cell (List.replicate 81 1) k ≠ 0) ∧
    (solveInner (List.replicate 81 1) 0 = some (true, List.replicate 81 1) ∧
     ∀ o, SolveCanReturn (List.replicate 81 1) o ↔
       o = SolveOutcome.alreadySolved (List.replicate 81 1)) :=
  ⟨by decide, claim_c9_full_board (List.replicate 81 1) (by decide)⟩

theorem claim_c10_witness :
    exampleBoard.length = 81 ∧ (0 : Nat) ≤ 81 ∧
    solveInner exampleBoard 0 = some (true, solvedBoard) ∧
    (∀ k, cell exampleBoard k ≠ 0 → cell solvedBoard k = cell exampleBoard k) :=
  ⟨exampleBoard_length, by decide, solveInner_example_eq,
    claim_c10_preserves_clues exampleBoard 0 true solvedBoard exampleBoard_length
      (by decide) solveInner_example_eq⟩

end Sudoku
